import Mathlib

/-!
Verification of the sbash core library (src/lib.rs): the item data model,
the line-faithful shell-script renderer, the single-main mode detection,
and the command-line resolution path.  Rust strings are modelled as lists
of characters; Rust panics and aborts (assert failures, unwraps) and
usage-error exits of the external argument-parsing engine are modelled as
the none case of Option.
-/

namespace SBash

/-- Strings are modelled as lists of characters. -/
abbrev Str := List Char

/-- Joined, trimmed comment text (struct Description in lib.rs). -/
structure Description where
  str : Str
  deriving DecidableEq, Repr

/-- One declared argument of an item (struct ItemArg in lib.rs). -/
structure ItemArg where
  name : Str
  description : Description
  deriving DecidableEq, Repr

/-- A function signature: name and ordered argument list (struct FnSignature in lib.rs). -/
structure FnSignature where
  name : Str
  args : List ItemArg
  deriving DecidableEq, Repr

/-- One parsed function item (struct Item in lib.rs). -/
structure Item where
  description : Description
  is_pub : Bool
  is_inline : Bool
  fn_signature : FnSignature
  body : Str
  body_line_number : Nat
  deriving DecidableEq, Repr

/-- count_newlines in lib.rs: the number of newline bytes in a string. -/
def count_newlines (s : Str) : Nat := s.count '\n'

/-- FnSignature::args in lib.rs: the argument-binding prologue, built by a
left fold appending one binding fragment per argument. -/
def FnSignature.argString (sig : FnSignature) : Str :=
  sig.args.foldl (fun acc a => acc ++ a.name ++ ("=\"$1\"; shift; ".data)) []

/-- The body of Item::script after its assertion has passed: padding
newlines followed by one of the three function forms.  Mirrors the three
format strings of lib.rs.  Natural subtraction is exact whenever the
assertion newline_count + 2 <= body_line_number holds. -/
def Item.scriptUnchecked (it : Item) (newline_count : Nat) : Str :=
  let pad : Str := List.replicate (it.body_line_number - (newline_count + 2)) '\n'
  let name := it.fn_signature.name
  if it.body = [] then
    pad ++ name ++ (" () \x7b :; \x7d".data)
  else if it.is_inline then
    pad ++ name ++ (" () \x7b ".data) ++ it.fn_signature.argString ++ '\n' :: it.body
      ++ ("\x7d;".data)
  else
    pad ++ name ++ (" () \x7b ( ".data) ++ it.fn_signature.argString ++ '\n' :: it.body
      ++ (") \x7d;".data)

/-- Item::script in lib.rs.  The assert that the desired body line is not
behind the next free line is modelled by returning none (abort). -/
def Item.script (it : Item) (newline_count : Nat) : Option Str :=
  if newline_count + 2 ≤ it.body_line_number then some (it.scriptUnchecked newline_count)
  else none

/-- The rendering loop of the Display impl for Script in lib.rs: a growing
buffer, each item rendered against the newline count of the buffer so far. -/
def renderAux (acc : Str) : List Item → Option Str
  | [] => some acc
  | it :: rest =>
    match it.script (count_newlines acc) with
    | none => none
    | some c => renderAux (acc ++ c) rest

theorem renderAux_nil (acc : Str) : renderAux acc [] = some acc := rfl

theorem renderAux_cons (acc : Str) (it : Item) (rest : List Item) :
    renderAux acc (it :: rest) =
      match it.script (count_newlines acc) with
      | none => none
      | some c => renderAux (acc ++ c) rest := rfl

theorem renderAux_cons_some {acc c : Str} {it : Item}
    (h : it.script (count_newlines acc) = some c) (rest : List Item) :
    renderAux acc (it :: rest) = renderAux (acc ++ c) rest := by
  rw [renderAux_cons, h]

/-- A validated script (struct Script in lib.rs). -/
structure Script where
  items : List Item
  only_pub_main_index : Option Nat
  deriving DecidableEq, Repr

/-- Display for Script in lib.rs: render the items in order into one buffer. -/
def Script.render (s : Script) : Option Str := renderAux [] s.items

/-- The name against which the single-main rule compares. -/
def mainName : Str := "main".data

/-- The validation loop of Script::parse in lib.rs: one linear pass over the
item list inserting names into a set (duplicate insertion is an assert
failure, modelled as none), counting public items and recording the index
of a public item named main. -/
def scan : List Str → Option Nat → Nat → Nat → List Item → Option (Option Nat × Nat)
  | _, idx, pc, _, [] => some (idx, pc)
  | seen, idx, pc, i, it :: rest =>
    let name := it.fn_signature.name
    if name ∈ seen then none
    else
      scan (name :: seen)
        (if it.is_pub = true ∧ name = mainName then some i else idx)
        (if it.is_pub then pc + 1 else pc)
        (i + 1) rest

/-- Script::parse in lib.rs, taken from the point where the parser has
produced the item list (the textual parser lives in the parser module,
outside this library file): run the validation pass, then discard the
recorded index unless the public count is exactly one. -/
def Script.parse (items : List Item) : Option Script :=
  match scan [] none 0 0 items with
  | none => none
  | some (idx, pc) => some ⟨items, if pc = 1 then idx else none⟩

/-- The number of public items. -/
def pubCount (items : List Item) : Nat := (items.filter (·.is_pub)).length

/-- The token by which the reserved top-level debug flag appears on a
command line. -/
def debugToken : Str := "--debug".data

/-- The view of validated argument matches that FnCall reduction reads
(the ArgMatches interface of the external engine): per-argument value
lists and presence of the top-level debug flag. -/
structure ArgMatches where
  vals : List (Str × List Str)
  debugPresent : Bool
  deriving DecidableEq, Repr

/-- First-match association lookup. -/
def assoc {β : Type} : List (Str × β) → Str → Option β
  | [], _ => none
  | (k, v) :: rest, n => if n = k then some v else assoc rest n

/-- values_of on an ArgMatches. -/
def ArgMatches.values_of (m : ArgMatches) (n : Str) : Option (List Str) :=
  assoc m.vals n

/-- extract_args in lib.rs: one value per declared argument name, in
declaration order.  A missing argument (values_of none), an empty value
iterator, or a second value are unwrap/assert failures, modelled as none. -/
def extract_args (m : ArgMatches) : List Str → Option (List Str)
  | [] => some []
  | n :: rest =>
    match m.values_of n with
    | none => none
    | some [] => none
    | some [v] => (extract_args m rest).map fun vs => v :: vs
    | some (_ :: _ :: _) => none

/-- The resolved call (struct FnCall in lib.rs). -/
structure FnCall where
  name : Str
  args : List Str
  debug : Bool
  deriving DecidableEq, Repr

/-- FnCall::new in lib.rs: arguments extracted from the subcommand-level
matches, debug flag read from the top-level matches. -/
def FnCall.new (name : Str) (arg_matches subcmd_matches : ArgMatches)
    (arg_names : List Str) : Option FnCall :=
  (extract_args subcmd_matches arg_names).map fun args =>
    ⟨name, args, arg_matches.debugPresent⟩

/-- item_arg_spec in lib.rs, reduced to the data it contributes to the
abstract CLI specification: the declared argument names in declaration
order (each declared required and single-valued). -/
def item_arg_spec (it : Item) : List Str :=
  it.fn_signature.args.map (·.name)

/-- Modelled from the spec: the external argument-parsing engine of spec
section 6 in single-entry-point mode (the clap crate is outside this
repository and is specified only at its interface boundary).  The first
argv element is the program name; every occurrence of the debug token sets
the top-level flag; the remaining tokens must supply exactly one value per
declared required single-valued argument, in order, else the engine exits
with a usage error (none). -/
def engineSingle (argNames : List Str) (argv : List Str) : Option ArgMatches :=
  match argv with
  | [] => none
  | _ :: toks =>
    let pos := toks.filter fun t => decide (¬ t = debugToken)
    if pos.length = argNames.length then
      some ⟨argNames.zip (pos.map fun v => [v]), decide (debugToken ∈ toks)⟩
    else none

/-- Modelled from the spec: the external argument-parsing engine of spec
section 6 in multi-subcommand mode.  Any occurrence of the debug token
after the program name sets the top-level flag, exactly as in the
single-entry-point mode and as spec Scenario B mandates for
prog build --debug; the first remaining token selects the subcommand,
which is mandatory and must be declared (else usage error, none); the
remaining non-flag tokens must supply exactly one value per declared
argument of that subcommand.  The subcommand-level matches carry no
top-level flag. -/
def engineSub (subs : List (Str × List Str)) (argv : List Str) :
    Option (Bool × Str × ArgMatches) :=
  match argv with
  | [] => none
  | _ :: toks =>
    let dbg := decide (debugToken ∈ toks)
    match toks.dropWhile (fun t => decide (t = debugToken)) with
    | [] => none
    | sub :: rest =>
      match assoc subs sub with
      | none => none
      | some argNames =>
        let pos := rest.filter fun t => decide (¬ t = debugToken)
        if pos.length = argNames.length then
          some (dbg, sub, ⟨argNames.zip (pos.map fun v => [v]), false⟩)
        else none

/-- The subcommand specifications built by Script::subcmd_args: one per
public item, in item order, carrying the declared argument names. -/
def Script.subSpecs (s : Script) : List (Str × List Str) :=
  (s.items.filter (·.is_pub)).map fun it => (it.fn_signature.name, item_arg_spec it)

/-- Script::single_item_args in lib.rs: build the top-level spec from the
sole item, run the engine, reduce.  Both matches arguments of FnCall::new
are the top-level matches. -/
def Script.single_item_args (s : Script) (main_index : Nat) (argv : List Str) :
    Option FnCall :=
  (s.items[main_index]?).bind fun item =>
    (engineSingle (item_arg_spec item) argv).bind fun m =>
      FnCall.new item.fn_signature.name m m (item_arg_spec item)

/-- Script::subcmd_args in lib.rs: one subcommand per public item, engine
selects one, reduce with top-level matches for the debug flag and
subcommand matches for the values. -/
def Script.subcmd_args (s : Script) (argv : List Str) : Option FnCall :=
  (engineSub s.subSpecs argv).bind fun r =>
    (assoc s.subSpecs r.2.1).bind fun arg_names =>
      FnCall.new r.2.1 ⟨[], r.1⟩ r.2.2 arg_names

/-- Script::parse_args in lib.rs: dispatch on the single-main index. -/
def Script.parse_args (s : Script) (exe_name : Str) (argv : List Str) : Option FnCall :=
  match s.only_pub_main_index with
  | some i => s.single_item_args i argv
  | none => s.subcmd_args argv

/-- Rust str::trim, over character lists: whitespace stripped from both ends. -/
def trimStr (s : Str) : Str :=
  ((s.dropWhile Char.isWhitespace).reverse.dropWhile Char.isWhitespace).reverse

/-- The join of itertools (used by Description::new): the first fragment,
then a separator-prefixed copy of each later fragment, here with the
single-space separator. -/
def joinSpace : List Str → Str
  | [] => []
  | s :: rest => s ++ rest.foldl (fun acc t => acc ++ ' ' :: t) []

/-- Description::new in lib.rs: pre-description fragments chained before
post-description fragments, each trimmed, joined with single spaces. -/
def Description.new (pre post : List Str) : Description :=
  ⟨joinSpace ((pre ++ post).map trimStr)⟩

/-- The From impl exposing a Description as present or absent: absent
exactly when the stored string is empty. -/
def Description.toOpt (d : Description) : Option Str :=
  if d.str = [] then none else some d.str

/-! ### Properties of the validation pass -/

theorem parse_args_of_single (s : Script) (exe : Str) (argv : List Str) (i : Nat)
    (hi : s.only_pub_main_index = some i) :
    s.parse_args exe argv = s.single_item_args i argv := by
  simp only [Script.parse_args]
  rw [hi]

theorem parse_args_of_none (s : Script) (exe : Str) (argv : List Str)
    (hn : s.only_pub_main_index = none) :
    s.parse_args exe argv = s.subcmd_args argv := by
  simp only [Script.parse_args]
  rw [hn]

theorem pubCount_cons (hd : Item) (tl : List Item) :
    pubCount (hd :: tl) = (if hd.is_pub then 1 else 0) + pubCount tl := by
  cases h : hd.is_pub <;> simp [pubCount, List.filter_cons, h, Nat.add_comm]

theorem scan_nodup {items : List Item} {seen : List Str} {idx : Option Nat} {pc i : Nat}
    {r : Option Nat × Nat} (h : scan seen idx pc i items = some r) :
    (items.map fun it => it.fn_signature.name).Nodup ∧
      ∀ it ∈ items, it.fn_signature.name ∉ seen := by
  induction items generalizing seen idx pc i r with
  | nil => simp
  | cons hd tl ih =>
    rw [scan] at h
    by_cases hmem : hd.fn_signature.name ∈ seen
    · simp [hmem] at h
    · simp only [if_neg hmem] at h
      obtain ⟨htl, hseen⟩ := ih h
      refine ⟨?_, ?_⟩
      · simp only [List.map_cons, List.nodup_cons]
        refine ⟨fun hx => ?_, htl⟩
        obtain ⟨it, hit, hname⟩ := List.mem_map.mp hx
        exact hseen it hit (hname ▸ List.mem_cons_self _ _)
      · intro it hit
        rcases List.mem_cons.mp hit with h0 | h0
        · exact h0 ▸ hmem
        · exact fun hc => hseen it h0 (List.mem_cons_of_mem _ hc)

theorem scan_pubCount {items : List Item} {seen : List Str} {idx : Option Nat}
    {pc i : Nat} {idx' : Option Nat} {pc' : Nat}
    (h : scan seen idx pc i items = some (idx', pc')) : pc' = pc + pubCount items := by
  induction items generalizing seen idx pc i with
  | nil =>
    rw [scan] at h
    simp only [Option.some.injEq, Prod.mk.injEq] at h
    simp [pubCount, h.2]
  | cons hd tl ih =>
    rw [scan] at h
    by_cases hmem : hd.fn_signature.name ∈ seen
    · simp [hmem] at h
    · simp only [if_neg hmem] at h
      have := ih h
      simp only [pubCount, List.filter_cons] at *
      cases hp : hd.is_pub <;> simp [hp] at this ⊢ <;> omega

theorem scan_idx_forward {items : List Item} {seen : List Str} {idx : Option Nat}
    {pc i : Nat} {idx' : Option Nat} {pc' j : Nat}
    (h : scan seen idx pc i items = some (idx', pc')) (hj : idx' = some j) :
    idx = some j ∨ ∃ it, i ≤ j ∧ items[j - i]? = some it ∧ it.is_pub = true ∧
      it.fn_signature.name = mainName := by
  induction items generalizing seen idx pc i with
  | nil =>
    rw [scan] at h
    simp only [Option.some.injEq, Prod.mk.injEq] at h
    exact Or.inl (h.1 ▸ hj)
  | cons hd tl ih =>
    rw [scan] at h
    by_cases hmem : hd.fn_signature.name ∈ seen
    · simp [hmem] at h
    · simp only [if_neg hmem] at h
      rcases ih h with h0 | ⟨it, hge, hget, hpub, hname⟩
      · by_cases hc : hd.is_pub = true ∧ hd.fn_signature.name = mainName
        · rw [if_pos hc] at h0
          have hij : i = j := by simpa using h0
          refine Or.inr ⟨hd, hij.le, ?_, hc.1, hc.2⟩
          simp [hij]
        · rw [if_neg hc] at h0
          exact Or.inl h0
      · refine Or.inr ⟨it, by omega, ?_, hpub, hname⟩
        have : j - i = (j - (i + 1)) + 1 := by omega
        rw [this]
        simpa using hget

theorem scan_idx_none {items : List Item} {seen : List Str} {idx : Option Nat}
    {pc i : Nat} {idx' : Option Nat} {pc' : Nat}
    (hp : pubCount items = 0) (h : scan seen idx pc i items = some (idx', pc')) :
    idx' = idx := by
  induction items generalizing seen idx pc i with
  | nil =>
    rw [scan] at h
    simp only [Option.some.injEq, Prod.mk.injEq] at h
    exact h.1.symm
  | cons hd tl ih =>
    rw [scan] at h
    by_cases hmem : hd.fn_signature.name ∈ seen
    · simp [hmem] at h
    · simp only [if_neg hmem] at h
      have hdp : hd.is_pub = false := by
        by_contra hc
        simp only [Bool.not_eq_false] at hc
        simp [pubCount, List.filter_cons, hc] at hp
      have htl : pubCount tl = 0 := by
        simpa [pubCount, List.filter_cons, hdp] using hp
      have := ih htl h
      simpa [hdp] using this

theorem scan_idx_unique {items : List Item} {seen : List Str} {idx : Option Nat}
    {pc i k : Nat} {it : Item}
    (hone : pubCount items = 1) (hget : items[k]? = some it)
    (hpub : it.is_pub = true) (hname : it.fn_signature.name = mainName)
    {idx' : Option Nat} {pc' : Nat}
    (h : scan seen idx pc i items = some (idx', pc')) : idx' = some (i + k) := by
  induction items generalizing seen idx pc i k with
  | nil => simp at hget
  | cons hd tl ih =>
    rw [scan] at h
    by_cases hmem : hd.fn_signature.name ∈ seen
    · simp [hmem] at h
    · simp only [if_neg hmem] at h
      cases k with
      | zero =>
        have hhd : hd = it := by simpa using hget
        subst hhd
        have htl : pubCount tl = 0 := by
          rw [pubCount_cons, hpub] at hone
          simp at hone
          omega
        rw [if_pos ⟨hpub, hname⟩] at h
        simpa using scan_idx_none htl h
      | succ k =>
        have hget' : tl[k]? = some it := by simpa using hget
        have hmem' : it ∈ tl := List.getElem?_mem hget'
        have htlpos : 1 ≤ pubCount tl := by
          have : it ∈ tl.filter (·.is_pub) := List.mem_filter.mpr ⟨hmem', by simp [hpub]⟩
          have := List.length_pos_of_mem this
          simpa [pubCount] using this
        have hdp : hd.is_pub = false := by
          cases hc : hd.is_pub with
          | false => rfl
          | true =>
            rw [pubCount_cons, hc] at hone
            simp at hone
            omega
        have htl : pubCount tl = 1 := by
          rw [pubCount_cons, hdp] at hone
          simpa using hone
        rw [if_neg (by simp [hdp])] at h
        have := ih htl hget' h
        rw [this]
        congr 1
        omega

/-- C5: any parsed item sequence containing two items that share a name makes
Script::parse fail during the linear name-insertion pass; no Script value is
returned and neither item is kept. -/
theorem duplicate_name_fatal (items : List Item) (i j : Nat) (it1 it2 : Item)
    (hij : i < j) (h1 : items[i]? = some it1) (h2 : items[j]? = some it2)
    (hname : it1.fn_signature.name = it2.fn_signature.name) :
    Script.parse items = none := by
  rw [Script.parse]
  cases hscan : scan [] none 0 0 items with
  | none => rfl
  | some r =>
    exfalso
    have hnd := (scan_nodup hscan).1
    have hm1 : (items.map fun it => it.fn_signature.name)[i]? = some it1.fn_signature.name := by
      simp [List.getElem?_map, h1]
    have hm2 : (items.map fun it => it.fn_signature.name)[j]? = some it2.fn_signature.name := by
      simp [List.getElem?_map, h2]
    have hlt : i < (items.map fun it => it.fn_signature.name).length :=
      (List.getElem?_eq_some.mp hm1).1
    have : i = j := by
      refine List.getElem?_inj hlt hnd ?_
      rw [hm1, hm2, hname]
    omega

/-- A concrete duplicate pair used as witness input. -/
def dupItemA : Item :=
  { description := ⟨[]⟩, is_pub := true, is_inline := true,
    fn_signature := ⟨"f".data, []⟩, body := [], body_line_number := 2 }

/-- A second item with the same name but different everything else. -/
def dupItemB : Item :=
  { description := ⟨[]⟩, is_pub := false, is_inline := false,
    fn_signature := ⟨"f".data, []⟩, body := "x".data, body_line_number := 3 }

theorem duplicate_name_fatal_witness :
    Script.parse [dupItemA, dupItemB] = none :=
  duplicate_name_fatal [dupItemA, dupItemB] 0 1 dupItemA dupItemB
    (by decide) rfl rfl rfl

/-- C2: after a successful Script::parse, the single-main index is some i
exactly when item i is public, named main, and the script has exactly one
public item; and Script::parse_args takes the single-entry-point path
exactly when this index is set, the subcommand path otherwise. -/
theorem single_main_mode (items : List Item) (s : Script)
    (h : Script.parse items = some s) :
    (∀ i, s.only_pub_main_index = some i ↔
      ∃ it, items[i]? = some it ∧ it.is_pub = true ∧
        it.fn_signature.name = mainName ∧ pubCount items = 1)
    ∧ (∀ exe argv i, s.only_pub_main_index = some i →
        s.parse_args exe argv = s.single_item_args i argv)
    ∧ (s.only_pub_main_index = none →
        ∀ exe argv, s.parse_args exe argv = s.subcmd_args argv) := by
  rw [Script.parse] at h
  cases hscan : scan [] none 0 0 items with
  | none => rw [hscan] at h; exact absurd h (by simp)
  | some r =>
    obtain ⟨idx, pc⟩ := r
    rw [hscan] at h
    simp only [Option.some.injEq] at h
    subst h
    refine ⟨?_, ?_, ?_⟩
    · intro i
      constructor
      · intro hi
        simp only at hi
        by_cases hpc : pc = 1
        · rw [if_pos hpc] at hi
          rcases scan_idx_forward hscan hi with h0 | ⟨it, _, hget, hpub, hname⟩
          · exact absurd h0 (by simp)
          · refine ⟨it, by simpa using hget, hpub, hname, ?_⟩
            have := scan_pubCount hscan
            omega
        · rw [if_neg hpc] at hi
          exact absurd hi (by simp)
      · rintro ⟨it, hget, hpub, hname, hcount⟩
        have hpc : pc = 1 := by
          have := scan_pubCount hscan
          omega
        simp only [hpc, if_pos]
        have := scan_idx_unique hcount hget hpub hname hscan
        simpa using this
    · intro exe argv i hi
      exact parse_args_of_single _ exe argv i hi
    · intro hn exe argv
      exact parse_args_of_none _ exe argv hn

/-- A concrete public item named main, used as witness input. -/
def itemMain : Item :=
  { description := ⟨[]⟩, is_pub := true, is_inline := false,
    fn_signature := ⟨"main".data, [⟨"path".data, ⟨[]⟩⟩]⟩,
    body := [], body_line_number := 2 }

/-- The script that Script::parse builds from the single public main item. -/
def scriptMain : Script := ⟨[itemMain], some 0⟩

theorem single_main_mode_witness :
    scriptMain.only_pub_main_index = some 0 :=
  ((single_main_mode [itemMain] scriptMain (by decide)).1 0).mpr
    ⟨itemMain, rfl, rfl, rfl, by decide⟩

/-! ### Properties of the code generator -/

/-- The argument-binding prologue as the spec words it: one binding
fragment per declared argument, in declaration order, concatenated. -/
def specPrologue (args : List ItemArg) : Str :=
  (args.map fun a => a.name ++ ("=\"$1\"; shift; ".data)).flatten

theorem foldl_append_eq_join {α : Type} (f : α → Str) (l : List α) (acc : Str) :
    l.foldl (fun acc a => acc ++ f a) acc = acc ++ (l.map f).flatten := by
  induction l generalizing acc with
  | nil => simp
  | cons hd tl ih => simp [List.foldl_cons, ih, List.append_assoc]

theorem argString_eq_specPrologue (sig : FnSignature) :
    sig.argString = specPrologue sig.args := by
  unfold FnSignature.argString specPrologue
  rw [show (fun (acc : Str) (a : ItemArg) => acc ++ a.name ++ ("=\"$1\"; shift; ".data)) =
    fun (acc : Str) (a : ItemArg) => acc ++ (a.name ++ ("=\"$1\"; shift; ".data)) by
      funext acc a; rw [List.append_assoc]]
  rw [foldl_append_eq_join]
  rfl

/-- Identifier well-formedness delivered by the textual parser: neither the
function name nor any argument name contains a newline. -/
def identOk (it : Item) : Prop :=
  '\n' ∉ it.fn_signature.name ∧ ∀ a ∈ it.fn_signature.args, '\n' ∉ a.name

instance (it : Item) : Decidable (identOk it) := by
  unfold identOk
  infer_instance

theorem count_newlines_append (a b : Str) :
    count_newlines (a ++ b) = count_newlines a + count_newlines b := by
  simp [count_newlines, List.count_append]

theorem count_newlines_of_not_mem {s : Str} (h : '\n' ∉ s) : count_newlines s = 0 := by
  simp [count_newlines, List.count_eq_zero]
  exact h

theorem count_newlines_specPrologue {args : List ItemArg}
    (h : ∀ a ∈ args, '\n' ∉ a.name) : count_newlines (specPrologue args) = 0 := by
  induction args with
  | nil => rfl
  | cons hd tl ih =>
    have hhd : '\n' ∉ hd.name := h hd (List.mem_cons_self _ _)
    have htl := ih fun a ha => h a (List.mem_cons_of_mem _ ha)
    simp only [specPrologue, List.map_cons, List.flatten_cons] at htl ⊢
    rw [count_newlines_append, count_newlines_append,
      count_newlines_of_not_mem hhd, htl]
    rfl

/-- Decomposition of a successful non-empty-body rendering: the chunk is a
prefix, the verbatim body, and a closing part, with a known newline count
for the prefix. -/
theorem script_some_decomp {it : Item} {n : Nat} {c : Str} (hb : ¬ it.body = [])
    (h : it.script n = some c) :
    ∃ pre post, c = pre ++ it.body ++ post ∧
      count_newlines pre = (it.body_line_number - (n + 2)) +
        count_newlines it.fn_signature.name +
        count_newlines it.fn_signature.argString + 1 ∧
      n + 2 ≤ it.body_line_number := by
  rw [Item.script] at h
  by_cases hle : n + 2 ≤ it.body_line_number
  · rw [if_pos hle] at h
    simp only [Option.some.injEq] at h
    subst h
    rw [Item.scriptUnchecked]
    simp only [if_neg hb]
    by_cases hi : it.is_inline = true
    · rw [if_pos hi]
      refine ⟨List.replicate (it.body_line_number - (n + 2)) '\n' ++ it.fn_signature.name ++
        (" () \x7b ".data) ++ it.fn_signature.argString ++ ['\n'], ("\x7d;".data), ?_, ?_, hle⟩
      · simp [List.append_assoc]
      · simp [count_newlines_append, count_newlines, List.count_replicate_self]
        omega
    · rw [if_neg hi]
      refine ⟨List.replicate (it.body_line_number - (n + 2)) '\n' ++ it.fn_signature.name ++
        (" () \x7b ( ".data) ++ it.fn_signature.argString ++ ['\n'], (") \x7d;".data), ?_, ?_, hle⟩
      · simp [List.append_assoc]
      · simp [count_newlines_append, count_newlines, List.count_replicate_self]
        omega
  · rw [if_neg hle] at h
    exact absurd h (by simp)

/-- The precondition of C6: at each emission point, the recorded body line
is at least the cumulative newline count plus two. -/
def admissibleFrom (acc : Str) : List Item → Bool
  | [] => true
  | it :: rest =>
    decide (count_newlines acc + 2 ≤ it.body_line_number) &&
      admissibleFrom (acc ++ it.scriptUnchecked (count_newlines acc)) rest

/-- C6: an item whose recorded body line lies before the line after the
current header aborts rendering (both the item renderer and the whole
loop); under the stated admissibility precondition the abort branch is
unreachable and rendering is total. -/
theorem padding_nonneg :
    (∀ (it : Item) (n : Nat), it.body_line_number < n + 2 → it.script n = none)
    ∧ (∀ (acc : Str) (it : Item) (rest : List Item),
        it.body_line_number < count_newlines acc + 2 → renderAux acc (it :: rest) = none)
    ∧ (∀ (acc : Str) (items : List Item), admissibleFrom acc items = true →
        ∃ out, renderAux acc items = some out) := by
  have habort : ∀ (it : Item) (n : Nat), it.body_line_number < n + 2 → it.script n = none := by
    intro it n hlt
    rw [Item.script, if_neg (by omega)]
  refine ⟨habort, ?_, ?_⟩
  · intro acc it rest hlt
    rw [renderAux, habort it _ hlt]
  · intro acc items
    induction items generalizing acc with
    | nil => exact fun _ => ⟨acc, rfl⟩
    | cons it rest ih =>
      intro h
      rw [admissibleFrom, Bool.and_eq_true, decide_eq_true_eq] at h
      obtain ⟨hle, hrest⟩ := h
      rw [renderAux, Item.script, if_pos hle]
      exact ih _ hrest

/-- A nonempty-body item whose recorded line is behind the cursor. -/
def itemBadLine : Item :=
  { description := ⟨[]⟩, is_pub := false, is_inline := true,
    fn_signature := ⟨"g".data, []⟩, body := "x".data, body_line_number := 1 }

theorem padding_nonneg_witness :
    itemBadLine.script 0 = none ∧
      ∃ out, renderAux [] [itemMain] = some out :=
  ⟨padding_nonneg.1 itemBadLine 0 (by decide),
    padding_nonneg.2.2 [] [itemMain] (by decide)⟩

/-- C4: a non-empty-body item renders as the argument-binding prologue
(one binding per declared argument, in declaration order) directly after
the header; inline items keep prologue and body inside the single brace
block, non-inline items run the body inside a nested subshell before the
outer brace closes. -/
theorem nonempty_rendering_forms (it : Item) (n : Nat)
    (hb : ¬ it.body = []) (hle : n + 2 ≤ it.body_line_number) :
    (it.is_inline = true →
      it.script n = some (List.replicate (it.body_line_number - (n + 2)) '\n' ++
        it.fn_signature.name ++ (" () \x7b ".data) ++ specPrologue it.fn_signature.args ++
        '\n' :: it.body ++ ("\x7d;".data)))
    ∧ (it.is_inline = false →
      it.script n = some (List.replicate (it.body_line_number - (n + 2)) '\n' ++
        it.fn_signature.name ++ (" () \x7b ( ".data) ++ specPrologue it.fn_signature.args ++
        '\n' :: it.body ++ (") \x7d;".data))) := by
  constructor
  · intro hi
    rw [Item.script, if_pos hle, Item.scriptUnchecked]
    simp only [if_neg hb, hi, if_pos, argString_eq_specPrologue]
  · intro hi
    rw [Item.script, if_pos hle, Item.scriptUnchecked]
    simp only [if_neg hb, hi, Bool.false_eq_true, if_neg, argString_eq_specPrologue,
      if_false]

/-- An inline item with one argument and a nonempty body. -/
def itemEcho : Item :=
  { description := ⟨[]⟩, is_pub := true, is_inline := true,
    fn_signature := ⟨"echoer".data, [⟨"x".data, ⟨[]⟩⟩]⟩,
    body := "echo hi\n".data, body_line_number := 3 }

theorem nonempty_rendering_forms_witness :
    itemEcho.script 0 = some (List.replicate (itemEcho.body_line_number - (0 + 2)) '\n' ++
      itemEcho.fn_signature.name ++ (" () \x7b ".data) ++
      specPrologue itemEcho.fn_signature.args ++
      '\n' :: itemEcho.body ++ ("\x7d;".data)) :=
  (nonempty_rendering_forms itemEcho 0 (by decide) (by decide)).1 rfl

/-- C7: an empty-body item renders (after padding) as the no-op function
with no argument-binding prologue, even when arguments are declared; the
CLI path still declares and binds those arguments, as in Scenario A where
the sole public item main with argument path renders as a no-op yet
resolves prog /tmp/x to name main, args [/tmp/x], debug false. -/
theorem empty_body_rendering :
    (∀ (it : Item) (n : Nat), it.body = [] → n + 2 ≤ it.body_line_number →
      it.script n = some (List.replicate (it.body_line_number - (n + 2)) '\n' ++
        it.fn_signature.name ++ (" () \x7b :; \x7d".data)))
    ∧ Script.parse [itemMain] = some scriptMain
    ∧ scriptMain.render = some (" () \x7b :; \x7d".data |> fun t => "main".data ++ t)
    ∧ scriptMain.parse_args ("prog".data) ["prog".data, "/tmp/x".data] =
        some ⟨"main".data, ["/tmp/x".data], false⟩ := by
  refine ⟨?_, by decide, by decide, by decide⟩
  intro it n hb hle
  rw [Item.script, if_pos hle, Item.scriptUnchecked, if_pos hb]

theorem empty_body_rendering_witness :
    itemMain.script 0 = some (List.replicate (itemMain.body_line_number - (0 + 2)) '\n' ++
      itemMain.fn_signature.name ++ (" () \x7b :; \x7d".data)) :=
  empty_body_rendering.1 itemMain 0 rfl (by decide)

/-- The rendering-loop invariant behind line fidelity: the buffer is a
prefix of the final output, and every later non-empty body lands with
exactly its recorded number of newlines before it. -/
theorem renderAux_fidelity {items : List Item} {acc out : Str}
    (h : renderAux acc items = some out) :
    (∃ r, out = acc ++ r) ∧
      ∀ (k : Nat) (it : Item), items[k]? = some it → ¬ it.body = [] → identOk it →
        ∃ p s, out = p ++ it.body ++ s ∧ count_newlines p + 1 = it.body_line_number := by
  induction items generalizing acc with
  | nil =>
    rw [renderAux] at h
    simp only [Option.some.injEq] at h
    subst h
    exact ⟨⟨[], by simp⟩, fun k it hk => by simp at hk⟩
  | cons it rest ih =>
    rw [renderAux] at h
    cases hs : it.script (count_newlines acc) with
    | none => rw [hs] at h; exact absurd h (by simp)
    | some c =>
      rw [hs] at h
      obtain ⟨⟨r, hr⟩, hrest⟩ := ih h
      refine ⟨⟨c ++ r, by rw [hr, List.append_assoc]⟩, ?_⟩
      intro k it' hk hbody hident
      cases k with
      | zero =>
        have hit : it = it' := by simpa using hk
        subst hit
        obtain ⟨pre, post, hc, hcount, hle⟩ := script_some_decomp hbody hs
        refine ⟨acc ++ pre, post ++ r, ?_, ?_⟩
        · rw [hr, hc]
          simp [List.append_assoc]
        · rw [count_newlines_append, hcount,
            count_newlines_of_not_mem hident.1,
            argString_eq_specPrologue, count_newlines_specPrologue hident.2]
          omega
      | succ k =>
        exact hrest k it' (by simpa using hk) hbody hident

/-- C1: whenever the Display rendering succeeds, the first character of
each item's verbatim body appears at exactly the item's recorded
body_line_number, counted from line 1 of the cumulative output (the
identifier hypotheses record the textual parser's guarantee that names
contain no newline). -/
theorem line_fidelity (items : List Item) (out : Str)
    (h : renderAux [] items = some out)
    (hid : ∀ it ∈ items, identOk it) :
    ∀ (k : Nat) (it : Item), items[k]? = some it → ¬ it.body = [] →
      ∃ p s, out = p ++ it.body ++ s ∧ count_newlines p + 1 = it.body_line_number := by
  intro k it hk hbody
  exact (renderAux_fidelity h).2 k it hk hbody (hid it (List.getElem?_mem hk))

theorem line_fidelity_witness :
    ∃ p s, (renderAux [] [itemEcho]).getD [] = p ++ itemEcho.body ++ s ∧
      count_newlines p + 1 = itemEcho.body_line_number :=
  line_fidelity [itemEcho] ((renderAux [] [itemEcho]).getD []) (by decide) (by decide)
    0 itemEcho rfl (by decide)

/-- The renderer distributes over list concatenation: the output of a
split item sequence is the second half rendered on top of the first
half's buffer. -/
theorem renderAux_append (acc : Str) (l1 l2 : List Item) :
    renderAux acc (l1 ++ l2) = (renderAux acc l1).bind fun mid => renderAux mid l2 := by
  induction l1 generalizing acc with
  | nil => rw [List.nil_append, renderAux_nil, Option.some_bind]
  | cons it rest ih =>
    rw [List.cons_append, renderAux_cons, renderAux_cons]
    cases hs : it.script (count_newlines acc) with
    | none => rfl
    | some c => exact ih (acc ++ c)

/-- An empty-body chunk carries exactly its padding newlines and nothing
more (the header line has no trailing newline). -/
theorem count_newlines_empty_chunk {it : Item} {n : Nat} (hb : it.body = [])
    (hn : '\n' ∉ it.fn_signature.name) :
    count_newlines (it.scriptUnchecked n) = it.body_line_number - (n + 2) := by
  rw [Item.scriptUnchecked, if_pos hb, count_newlines_append, count_newlines_append,
    count_newlines_of_not_mem hn]
  simp [count_newlines, List.count_replicate_self]

/-- A chunk rendered with zero padding starts directly with the item name. -/
theorem scriptUnchecked_head {it : Item} {n : Nat} (h : it.body_line_number = n + 2) :
    ∃ t, it.scriptUnchecked n = it.fn_signature.name ++ t := by
  have hpad : it.body_line_number - (n + 2) = 0 := by omega
  rw [Item.scriptUnchecked, hpad]
  by_cases hb : it.body = []
  · exact ⟨(" () \x7b :; \x7d".data), by simp [hb]⟩
  · by_cases hi : it.is_inline = true
    · refine ⟨(" () \x7b ".data) ++ it.fn_signature.argString ++ '\n' :: it.body ++
        ("\x7d;".data), ?_⟩
      simp [hb, hi, List.append_assoc]
    · refine ⟨(" () \x7b ( ".data) ++ it.fn_signature.argString ++ '\n' :: it.body ++
        (") \x7d;".data), ?_⟩
      simp [hb, hi, List.append_assoc]

/-- C10: item renderings are concatenated with no separator; an empty-body
rendering contains no newline at all beyond its padding; and wherever an
empty-body item is followed by an item whose recorded line requires zero
padding at its emission point (equivalently, an equal body_line_number),
the successor's header text is appended directly after the predecessor's
closing brace, on the same output line. -/
theorem no_separator_concat :
    (∀ (it : Item) (n : Nat), it.body = [] → '\n' ∉ it.fn_signature.name →
      count_newlines (it.scriptUnchecked n) = it.body_line_number - (n + 2))
    ∧ (∀ (acc c : Str) (it : Item) (rest : List Item),
        it.script (count_newlines acc) = some c →
        renderAux acc (it :: rest) = renderAux (acc ++ c) rest)
    ∧ (∀ (pre : List Item) (it1 it2 : Item) (post : List Item) (out : Str),
        renderAux [] (pre ++ it1 :: it2 :: post) = some out →
        it1.body = [] → '\n' ∉ it1.fn_signature.name →
        it2.body_line_number = it1.body_line_number →
        ∃ p s, out = p ++ it2.fn_signature.name ++ s ∧
          count_newlines p = it1.body_line_number - 2 ∧ ∃ q, p = q ++ ['\x7d']) := by
  refine ⟨fun it n hb hn => count_newlines_empty_chunk hb hn,
    fun acc c it rest hs => renderAux_cons_some hs rest, ?_⟩
  intro pre it1 it2 post out hout hb hn hbl
  rw [renderAux_append] at hout
  cases hmid : renderAux [] pre with
  | none => rw [hmid] at hout; exact absurd hout (by simp)
  | some mid =>
    rw [hmid] at hout
    simp only [Option.some_bind] at hout
    rw [renderAux_cons] at hout
    cases hs1 : it1.script (count_newlines mid) with
    | none => rw [hs1] at hout; exact absurd hout (by simp)
    | some c1 =>
      rw [hs1] at hout
      have hout1 : renderAux (mid ++ c1) (it2 :: post) = some out := hout
      have hle1 : count_newlines mid + 2 ≤ it1.body_line_number := by
        by_contra hc
        rw [Item.script, if_neg (by omega)] at hs1
        exact absurd hs1 (by simp)
      have hc1 : c1 = it1.scriptUnchecked (count_newlines mid) := by
        rw [Item.script, if_pos hle1] at hs1
        simpa using hs1.symm
      have hcnt1 : count_newlines (mid ++ c1) = it1.body_line_number - 2 := by
        rw [count_newlines_append, hc1, count_newlines_empty_chunk hb hn]
        omega
      rw [renderAux_cons, hcnt1] at hout1
      cases hs2 : it2.script (it1.body_line_number - 2) with
      | none => rw [hs2] at hout1; exact absurd hout1 (by simp)
      | some c2 =>
        rw [hs2] at hout1
        have hout2 : renderAux ((mid ++ c1) ++ c2) post = some out := hout1
        obtain ⟨r, hr⟩ := (renderAux_fidelity hout2).1
        have hpad2 : it2.body_line_number = (it1.body_line_number - 2) + 2 := by omega
        have hc2 : c2 = it2.scriptUnchecked (it1.body_line_number - 2) := by
          rw [Item.script, if_pos (by omega)] at hs2
          simpa using hs2.symm
        obtain ⟨t, ht⟩ := scriptUnchecked_head hpad2
        refine ⟨mid ++ c1, t ++ r, ?_, hcnt1, ?_⟩
        · rw [hr, hc2, ht]
          simp [List.append_assoc]
        · refine ⟨mid ++ (List.replicate (it1.body_line_number - (count_newlines mid + 2)) '\n'
            ++ it1.fn_signature.name ++ (" () \x7b :; ".data)), ?_⟩
          rw [hc1, Item.scriptUnchecked, if_pos hb]
          simp only [List.append_assoc]
          rfl

/-- A second item rendered right after the no-op item, requiring no padding. -/
def itemAfter : Item :=
  { description := ⟨[]⟩, is_pub := false, is_inline := true,
    fn_signature := ⟨"h".data, []⟩, body := "y".data, body_line_number := 2 }

theorem no_separator_concat_witness :
    ∃ p s, (renderAux [] ([] ++ itemMain :: itemAfter :: [])).getD [] =
        p ++ itemAfter.fn_signature.name ++ s ∧
      count_newlines p = itemMain.body_line_number - 2 ∧ ∃ q, p = q ++ ['\x7d'] :=
  no_separator_concat.2.2 [] itemMain itemAfter []
    ((renderAux [] ([] ++ itemMain :: itemAfter :: [])).getD []) (by decide) rfl
    (by decide) rfl

/-! ### Properties of command-line resolution -/

/-- A public zero-argument item named build (spec Scenario B). -/
def itemBuild : Item :=
  { description := ⟨[]⟩, is_pub := true, is_inline := true,
    fn_signature := ⟨"build".data, []⟩, body := [], body_line_number := 2 }

/-- A second public zero-argument item named test (spec Scenario B). -/
def itemTest : Item :=
  { description := ⟨[]⟩, is_pub := true, is_inline := true,
    fn_signature := ⟨"test".data, []⟩, body := [], body_line_number := 2 }

/-- The multi-subcommand script of spec Scenario B: two public items, so
the single-main index is discarded. -/
def scriptBuildTest : Script := ⟨[itemBuild, itemTest], none⟩

/-- C3: a successful extraction yields exactly one value per declared
argument, in declaration order; a second value for any argument aborts
(none); the resolved FnCall's debug flag comes from the top-level
matches in both the single-entry-point and the multi-subcommand path;
and spec Scenario B resolves concretely: prog build --debug yields
name build, no arguments, debug true, while a missing subcommand is a
usage error. -/
theorem fncall_reduction :
    (∀ (m : ArgMatches) (names vs : List Str), extract_args m names = some vs →
      vs.length = names.length ∧
        ∀ k : Nat, k < names.length → ∃ n v, names[k]? = some n ∧ vs[k]? = some v ∧
          m.values_of n = some [v])
    ∧ (∀ (m : ArgMatches) (names : List Str) (n v w : Str) (ws : List Str),
        n ∈ names → m.values_of n = some (v :: w :: ws) → extract_args m names = none)
    ∧ (∀ (s : Script) (exe : Str) (argv : List Str) (fc : FnCall) (i : Nat) (it : Item)
        (m : ArgMatches), s.only_pub_main_index = some i → s.items[i]? = some it →
        engineSingle (item_arg_spec it) argv = some m →
        s.parse_args exe argv = some fc → fc.debug = m.debugPresent)
    ∧ (∀ (s : Script) (exe : Str) (argv : List Str) (fc : FnCall) (dbg : Bool) (nm : Str)
        (subM : ArgMatches), s.only_pub_main_index = none →
        engineSub s.subSpecs argv = some (dbg, nm, subM) →
        s.parse_args exe argv = some fc → fc.debug = dbg)
    ∧ Script.parse [itemBuild, itemTest] = some scriptBuildTest
    ∧ scriptBuildTest.parse_args ("prog".data) ["prog".data, "build".data, debugToken] =
        some ⟨"build".data, [], true⟩
    ∧ scriptBuildTest.parse_args ("prog".data) ["prog".data] = none := by
  refine ⟨?_, ?_, ?_, ?_, by decide, by decide, by decide⟩
  · intro m names
    induction names with
    | nil =>
      intro vs h
      rw [extract_args] at h
      simp only [Option.some.injEq] at h
      subst h
      exact ⟨rfl, fun k hk => by simp at hk⟩
    | cons n rest ih =>
      intro vs h
      rw [extract_args] at h
      cases hv : m.values_of n with
      | none => rw [hv] at h; exact absurd h (by simp)
      | some l =>
        rw [hv] at h
        match l with
        | [] => exact absurd h (by simp)
        | [v] =>
          obtain ⟨vs', hvs', hcons⟩ := Option.map_eq_some'.mp h
          subst hcons
          obtain ⟨hlen, hidx⟩ := ih vs' hvs'
          refine ⟨by simp [hlen], ?_⟩
          intro k hk
          cases k with
          | zero => exact ⟨n, v, by simp, by simp, hv⟩
          | succ k =>
            obtain ⟨n', v', h1, h2, h3⟩ := hidx k (by simpa using hk)
            exact ⟨n', v', by simpa using h1, by simpa using h2, h3⟩
        | v :: w :: ws => exact absurd h (by simp)
  · intro m names n v w ws hmem hv
    induction names with
    | nil => simp at hmem
    | cons hd tl ih =>
      rw [extract_args]
      by_cases hn : n = hd
      · subst hn
        rw [hv]
      · have hmem' : n ∈ tl := by
          rcases List.mem_cons.mp hmem with h0 | h0
          · exact absurd h0 hn
          · exact h0
        cases hh : m.values_of hd with
        | none => rfl
        | some l =>
          match l with
          | [] => rfl
          | [u] => rw [ih hmem']; rfl
          | u :: u' :: us => rfl
  · intro s exe argv fc i it m hi hit hm hfc
    rw [parse_args_of_single s exe argv i hi, Script.single_item_args, hit] at hfc
    simp only [Option.some_bind] at hfc
    rw [hm] at hfc
    simp only [Option.some_bind] at hfc
    rw [FnCall.new] at hfc
    obtain ⟨args, _, hfc2⟩ := Option.map_eq_some'.mp hfc
    rw [← hfc2]
  · intro s exe argv fc dbg nm subM hn hsub hfc
    rw [parse_args_of_none s exe argv hn, Script.subcmd_args, hsub] at hfc
    simp only [Option.some_bind] at hfc
    cases ha : assoc s.subSpecs nm with
    | none =>
      rw [ha] at hfc
      exact absurd hfc (by simp)
    | some arg_names =>
      rw [ha] at hfc
      simp only [Option.some_bind] at hfc
      rw [FnCall.new] at hfc
      obtain ⟨args, _, hfc2⟩ := Option.map_eq_some'.mp hfc
      rw [← hfc2]

/-- Matches that carry two values for the declared argument. -/
def matchesTwoVals : ArgMatches :=
  ⟨[("path".data, ["a".data, "b".data])], false⟩

theorem fncall_reduction_witness :
    extract_args matchesTwoVals ["path".data] = none :=
  fncall_reduction.2.1 matchesTwoVals ["path".data] ("path".data) ("a".data) ("b".data) []
    (by decide) rfl

/-- Projection that forgets the inlining flag. -/
def Item.eraseInline (it : Item) : Item := { it with is_inline := true }

theorem subSpecs_invariant (l1 l2 : List Item)
    (h : l1.map Item.eraseInline = l2.map Item.eraseInline) :
    (l1.filter (·.is_pub)).map (fun it => (it.fn_signature.name, item_arg_spec it)) =
      (l2.filter (·.is_pub)).map (fun it => (it.fn_signature.name, item_arg_spec it)) := by
  induction l1 generalizing l2 with
  | nil =>
    cases l2 with
    | nil => rfl
    | cons hd tl => simp at h
  | cons hd1 tl1 ih =>
    cases l2 with
    | nil => simp at h
    | cons hd2 tl2 =>
      rw [List.map_cons, List.map_cons] at h
      injection h with hhd htl
      have hpub : hd1.is_pub = hd2.is_pub := by
        have h' := congrArg Item.is_pub hhd
        exact h'
      have hsig : hd1.fn_signature = hd2.fn_signature := by
        have h' := congrArg Item.fn_signature hhd
        exact h'
      rw [List.filter_cons, List.filter_cons, hpub]
      cases hp : hd2.is_pub with
      | false => simpa using ih tl2 htl
      | true =>
        rw [if_pos rfl, if_pos rfl]
        simp only [List.map_cons]
        rw [ih tl2 htl]
        simp [item_arg_spec, hsig]

/-- C9: two scripts that agree except for the is_inline flags of their items
resolve every command line identically; the flag is codegen-only. -/
theorem inline_flag_codegen_only (s1 s2 : Script)
    (hitems : s1.items.map Item.eraseInline = s2.items.map Item.eraseInline)
    (hidx : s1.only_pub_main_index = s2.only_pub_main_index) :
    ∀ (exe : Str) (argv : List Str), s1.parse_args exe argv = s2.parse_args exe argv := by
  intro exe argv
  have hsubs : s1.subSpecs = s2.subSpecs := subSpecs_invariant _ _ hitems
  cases hx : s2.only_pub_main_index with
  | some i =>
    rw [parse_args_of_single s1 exe argv i (hidx.trans hx),
      parse_args_of_single s2 exe argv i hx]
    rw [Script.single_item_args, Script.single_item_args]
    have hget : (s1.items[i]?).map Item.eraseInline = (s2.items[i]?).map Item.eraseInline := by
      rw [← List.getElem?_map, ← List.getElem?_map, hitems]
    cases h1 : s1.items[i]? with
    | none =>
      cases h2 : s2.items[i]? with
      | none => rfl
      | some it2 => rw [h1, h2] at hget; exact absurd hget (by simp)
    | some it1 =>
      cases h2 : s2.items[i]? with
      | none => rw [h1, h2] at hget; exact absurd hget (by simp)
      | some it2 =>
        rw [h1, h2] at hget
        have herase : it1.eraseInline = it2.eraseInline := by simpa using hget
        have hsig : it1.fn_signature = it2.fn_signature := by
          have h' := congrArg Item.fn_signature herase
          exact h'
        simp only [Option.some_bind]
        rw [show item_arg_spec it1 = item_arg_spec it2 from by
            rw [item_arg_spec, item_arg_spec, hsig],
          show it1.fn_signature.name = it2.fn_signature.name from by rw [hsig]]
  | none =>
    rw [parse_args_of_none s1 exe argv (hidx.trans hx), parse_args_of_none s2 exe argv hx]
    rw [Script.subcmd_args, Script.subcmd_args, hsubs]

/-- The single-main item with the inlining flag flipped. -/
def itemMainInline : Item := { itemMain with is_inline := true }

/-- The corresponding script value. -/
def scriptMainInline : Script := ⟨[itemMainInline], some 0⟩

theorem inline_flag_codegen_only_witness :
    scriptMain.parse_args ("prog".data) ["prog".data, "/tmp/x".data] =
      scriptMainInline.parse_args ("prog".data) ["prog".data, "/tmp/x".data] :=
  inline_flag_codegen_only scriptMain scriptMainInline (by decide) rfl
    ("prog".data) ["prog".data, "/tmp/x".data]

/-! ### Properties of description joining -/

/-- The Description contract as the spec words it: trimmed fragments joined
with single spaces, pre-description fragments first. -/
def specDescription (pre post : List Str) : Str :=
  (List.intersperse (" ".data) ((pre ++ post).map trimStr)).flatten

theorem joinSpace_eq_intersperse (l : List Str) :
    joinSpace l = (List.intersperse (" ".data) l).flatten := by
  cases l with
  | nil => rfl
  | cons s rest =>
    rw [joinSpace, foldl_append_eq_join (fun t => ' ' :: t) rest []]
    rw [List.nil_append]
    induction rest generalizing s with
    | nil => simp
    | cons t rest2 ih =>
      simp only [List.intersperse_cons_cons, List.flatten_cons, List.map_cons]
      rw [← ih t]
      cases rest2 with
      | nil => simp
      | cons u rest3 =>
        simp [List.append_assoc]

/-- C8: the Description is the trimmed fragments joined with single spaces,
pre-description fragments first; zero fragments give an absent description;
the description is absent exactly when the joined string is empty, and in
particular a fragment that trims to nothing yields an absent description. -/
theorem description_joining :
    (∀ pre post, (Description.new pre post).str = specDescription pre post)
    ∧ (Description.new [] []).toOpt = none
    ∧ (∀ pre post, (Description.new pre post).toOpt = none ↔
        (Description.new pre post).str = [])
    ∧ (∀ s, trimStr s = [] → (Description.new [s] []).toOpt = none) := by
  refine ⟨?_, rfl, ?_, ?_⟩
  · intro pre post
    rw [Description.new, specDescription]
    exact joinSpace_eq_intersperse _
  · intro pre post
    rw [Description.toOpt]
    by_cases h : (Description.new pre post).str = []
    · simp [h]
    · simp [h]
  · intro s h
    rw [Description.toOpt]
    have : (Description.new [s] []).str = [] := by
      simp [Description.new, joinSpace, h]
    simp [this]

theorem description_joining_witness :
    (Description.new ["  ".data] []).toOpt = none :=
  description_joining.2.2.2 ("  ".data) (by decide)

end SBash
